import Mathlib

/-!
Verification of `generate_tree.py`, a directory-tree reporting script.

The script recursively walks a directory, renders an ASCII tree with per-file
character counts, and writes a report with the largest files.  We embed the
script shallowly:

* the filesystem visible to the walk is an inductive tree `FS`
  (a regular file with its readable text, a directory with a readability flag
  modelling `PermissionError` on `iterdir`, or an entry that is neither a
  regular file nor a directory, e.g. a broken symlink or socket);
* `count_chars` receives the decoded text of the file, or `none` when the
  file cannot be opened or read (the `except` branch of the source);
* `walk_directory` is embedded with explicit fuel (`walkDirF`), mirroring the
  unbounded recursion of the source; the total wrapper `walk_directory`
  supplies fuel that is always sufficient (proved below);
* Python's `sorted`/`list.sort` are stable sorts, embedded with the (stable)
  `List.insertionSort`; string comparison and `str.lower` are embedded at the
  character-list level (`charsLE`, `lowerStr`) so everything computes.
-/

/-- Filesystem entry as observed by the walk: a regular file with its decoded
content (`none` when opening or reading fails), a directory with a flag that
is `false` when listing it raises `PermissionError`, or an entry that is
neither a regular file nor a directory. -/
inductive FS where
  | file (name : String) (content : Option String) : FS
  | dir (name : String) (readable : Bool) (children : List FS) : FS
  | other (name : String) : FS

/-- Embeds `item.name`. -/
def fsName : FS → String
  | .file n _ => n
  | .dir n _ _ => n
  | .other n => n

/-- Embeds `item.is_file()`. -/
def fsIsFile : FS → Bool
  | .file _ _ => true
  | _ => false

/-- Embeds `item.is_dir()`. -/
def fsIsDir : FS → Bool
  | .dir _ _ _ => true
  | _ => false

/-- One element of `file_info`: the tuple
`(str(item), char_count, str(relative_path))`. -/
structure FileEntry where
  full : String
  count : Nat
  rel : String
deriving DecidableEq, Repr

/-- Embeds `count_chars`: length of the decoded text, or `0` when the file
cannot be opened or read (the `except Exception` branch returns `0`). -/
def count_chars : Option String → Nat
  | some text => text.length
  | none => 0

/-- Embeds `str.lower()` (character-wise lowercasing). -/
def lowerStr (s : String) : String := String.mk (s.data.map Char.toLower)

/-- Lexicographic code-point comparison of character lists: Python's `<=` on
strings. -/
def charsLE : List Char → List Char → Bool
  | [], _ => true
  | _ :: _, [] => false
  | a :: as, b :: bs => a < b || (a == b && charsLE as bs)

/-- Python string `<=`. -/
def strLE (a b : String) : Bool := charsLE a.data b.data

/-- The sort key of the walk, `key=lambda x: (x.is_file(), x.name.lower())`,
as a lexicographic comparison of the key tuples (`False < True` on booleans,
then string order on the lowercased names). -/
def keyLE (a b : FS) : Bool :=
  (!fsIsFile a && fsIsFile b) ||
    (fsIsFile a == fsIsFile b && strLE (lowerStr (fsName a)) (lowerStr (fsName b)))

/-- Embeds `sorted(path.iterdir(), key=...)`.  Python's `sorted` is stable, so
it is embedded by the stable `List.insertionSort` on the key order. -/
def sortItems (l : List FS) : List FS :=
  List.insertionSort (fun a b => keyLE a b = true) l

/-- Embeds `pathlib` path joining as used by `str(item)`: children of the
root `Path "."` print without a `./` prefix. -/
def joinPath (p n : String) : String := if p = "." then n else p ++ "/" ++ n

/-- Embeds `str(item.relative_to(root))`: the first component drops the empty
accumulator. -/
def joinRel (r n : String) : String := if r = "" then n else r ++ "/" ++ n

/-- Groups a least-significant-first digit list in threes with commas. -/
def commaGroup : List Char → List Char
  | c1 :: c2 :: c3 :: c4 :: rest => c1 :: c2 :: c3 :: ',' :: commaGroup (c4 :: rest)
  | l => l

/-- Embeds the format specifier in `f"... ({char_count:,})"`: decimal digits
with thousands separators. -/
def fmtThousands (n : Nat) : String :=
  String.mk ((commaGroup (Nat.toDigits 10 n).reverse).reverse)

mutual
/-- Number of entries of a filesystem tree (used as fuel bound). -/
def fsSize : FS → Nat
  | .file _ _ => 1
  | .other _ => 1
  | .dir _ _ cs => 1 + fsListSize cs

/-- Number of entries of a filesystem forest. -/
def fsListSize : List FS → Nat
  | [] => 0
  | a :: l => fsSize a + fsListSize l
end

/-- Fuel-indexed embedding of `walk_directory`.  The fuel bounds the call
depth, mirroring the source's unbounded recursion; `none` means the fuel ran
out (never happens with sufficient fuel, proved below).  For each child, in
sorted order, `is_last_item = (i == len(items) - 1)` is computed over the
whole sibling list, then children named in `ignore_dirs` are skipped, files
yield a tree line and a `file_info` record, directories yield a line and are
recursed into, and anything else is passed over. -/
def walkDirF : Nat → List String → String → String → String → Bool → List FS →
    Option (List String × List FileEntry)
  | 0, _, _, _, _, _, _ => none
  | fuel+1, ignore_dirs, full, rel, pfx, readable, children =>
    if readable then
      let items := sortItems children
      (items.enum.map (fun p => (p.2, p.1 + 1 == items.length))).foldr
        (fun q acc => do
          let tail ← acc
          if fsName q.1 ∈ ignore_dirs then some tail
          else
            match q.1 with
            | FS.file name content =>
              some ((pfx ++ (if q.2 then "└── " else "├── ") ++ name ++ " (" ++
                      fmtThousands (count_chars content) ++ ")") :: tail.1,
                    (⟨joinPath full name, count_chars content, joinRel rel name⟩ : FileEntry)
                      :: tail.2)
            | FS.dir name r cs => do
              let sub ← walkDirF fuel ignore_dirs (joinPath full name) (joinRel rel name)
                (pfx ++ (if q.2 then "    " else "│   ")) r cs
              some ((pfx ++ (if q.2 then "└── " else "├── ") ++ name ++ "/") ::
                      (sub.1 ++ tail.1),
                    sub.2 ++ tail.2)
            | FS.other _ => some tail)
        (some ([], []))
    else some ([], [])

/-- Total embedding of `walk_directory`: the fuel `fsListSize children + 1` is
always sufficient (`walkDirF_complete` below), so the default is never
taken. -/
def walk_directory (ignore_dirs : List String) (full rel pfx : String)
    (readable : Bool) (children : List FS) : List String × List FileEntry :=
  (walkDirF (fsListSize children + 1) ignore_dirs full rel pfx readable children).getD ([], [])

/-- The default `ignore_dirs` set of `get_tree_structure`. -/
def default_ignore : List String :=
  [".git", "__pycache__", "node_modules", ".next", ".turbo", "dist", "build", ".sst"]

/-- Embeds `get_tree_structure(root_dir, ignore_dirs)`: walks the root
directory (its readability flag and children are given) and returns
`(tree_lines, file_info)`. -/
def get_tree_structure (ignore_dirs : List String) (root_dir : String)
    (readable : Bool) (children : List FS) : List String × List FileEntry :=
  walk_directory ignore_dirs root_dir "" "" readable children

/-- Embeds `file_info.sort(key=lambda x: x[1], reverse=True)`: a stable sort,
descending by character count. -/
def sortFiles (l : List FileEntry) : List FileEntry :=
  List.insertionSort (fun a b => b.count ≤ a.count) l

/-- The 80-character `=` banner. -/
def bannerLine : String := String.mk (List.replicate 80 '=')

/-- The lines of the top-files section: `f"{full_path} ({char_count:,})\n"`
for the first 100 records of the sorted `file_info`. -/
def top_files_lines (file_info : List FileEntry) : List String :=
  (file_info.take 100).map (fun e => e.full ++ " (" ++ fmtThousands e.count ++ ")\n")

/-- Embeds the output file written by `main` (root `"."`, default ignore
set): the concatenation of all `f.write` calls. -/
def main_report (readable : Bool) (children : List FS) : String :=
  let t := get_tree_structure default_ignore "." readable children
  let file_info := sortFiles t.2
  String.join ([bannerLine ++ "\n", "TREE СТРУКТУРА РЕПОЗИТОРИЯ\n", bannerLine ++ "\n\n", ".\n"]
    ++ t.1.map (fun line => line ++ "\n")
    ++ ["\n" ++ bannerLine ++ "\n",
        "ТОП 100 ФАЙЛОВ ПО КОЛИЧЕСТВУ СИМВОЛОВ (от больших к маленьким)\n",
        bannerLine ++ "\n\n"]
    ++ top_files_lines file_info)

/-- Embeds the final summary `len(file_info)` printed by `main`. -/
def total_files (readable : Bool) (children : List FS) : Nat :=
  (sortFiles (get_tree_structure default_ignore "." readable children).2).length

/-- Real directory listings never yield an entry named `""` or `"."`. -/
def nameOK (n : String) : Bool := !(n == "") && !(n == ".")

mutual
/-- All names in the tree are plausible directory-entry names. -/
def namesOK : FS → Bool
  | .file n _ => nameOK n
  | .other n => nameOK n
  | .dir n _ cs => nameOK n && namesOKL cs

/-- All names in the forest are plausible directory-entry names. -/
def namesOKL : List FS → Bool
  | [] => true
  | a :: l => namesOK a && namesOKL l
end

/-- Relative path obtained by extending an accumulator with path segments. -/
def relPathOf (rel : String) (segs : List String) : String := segs.foldl joinRel rel

/-- Modelled from the spec: a POSIX absolute path, i.e. a path string that
begins with the separator `/`.  (Used to check the spec sentence calling the
first `FileEntry` component an absolute path.) -/
def isAbsolutePath (s : String) : Bool :=
  match s.data with
  | [] => false
  | c :: _ => c == '/'

/-! ## Decomposition helpers -/

/-- Pairs each element with its `is_last_item` flag: `true` exactly for
the final element. -/
def markLast {α : Type _} : List α → List (α × Bool)
  | [] => []
  | [a] => [(a, true)]
  | a :: b :: l => (a, false) :: markLast (b :: l)

/-- Concatenates per-child contributions of tree lines and file records. -/
def combine (ps : List (List String × List FileEntry)) : List String × List FileEntry :=
  ps.foldr (fun p q => (p.1 ++ q.1, p.2 ++ q.2)) ([], [])

/-- The loop body of `walkDirF` for one `(child, is_last_item)` pair, as a
named function. -/
def stepB (fuel : Nat) (ignore_dirs : List String) (full rel pfx : String)
    (q : FS × Bool) (acc : Option (List String × List FileEntry)) :
    Option (List String × List FileEntry) := do
  let tail ← acc
  if fsName q.1 ∈ ignore_dirs then some tail
  else
    match q.1 with
    | FS.file name content =>
      some ((pfx ++ (if q.2 then "└── " else "├── ") ++ name ++ " (" ++
              fmtThousands (count_chars content) ++ ")") :: tail.1,
            (⟨joinPath full name, count_chars content, joinRel rel name⟩ : FileEntry)
              :: tail.2)
    | FS.dir name r cs => do
      let sub ← walkDirF fuel ignore_dirs (joinPath full name) (joinRel rel name)
        (pfx ++ (if q.2 then "    " else "│   ")) r cs
      some ((pfx ++ (if q.2 then "└── " else "├── ") ++ name ++ "/") ::
              (sub.1 ++ tail.1),
            sub.2 ++ tail.2)
    | FS.other _ => some tail

/-- Contribution of a single `(child, is_last_item)` pair to the walk output:
nothing for ignored or non-file non-directory children; a tree line plus a
file record for files; a tree line plus the recursive walk for directories. -/
def childStep (ignore_dirs : List String) (full rel pfx : String)
    (q : FS × Bool) : List String × List FileEntry :=
  if fsName q.1 ∈ ignore_dirs then ([], [])
  else
    match q.1 with
    | FS.file name content =>
      ([pfx ++ (if q.2 then "└── " else "├── ") ++ name ++ " (" ++
          fmtThousands (count_chars content) ++ ")"],
       [⟨joinPath full name, count_chars content, joinRel rel name⟩])
    | FS.dir name r cs =>
      let sub := walk_directory ignore_dirs (joinPath full name) (joinRel rel name)
        (pfx ++ (if q.2 then "    " else "│   ")) r cs
      ((pfx ++ (if q.2 then "└── " else "├── ") ++ name ++ "/") :: sub.1, sub.2)
    | FS.other _ => ([], [])

theorem walkDirF_succ (fuel : Nat) (ignore_dirs : List String) (full rel pfx : String)
    (readable : Bool) (children : List FS) :
    walkDirF (fuel+1) ignore_dirs full rel pfx readable children =
      if readable then
        ((sortItems children).enum.map
            (fun p => (p.2, p.1 + 1 == (sortItems children).length))).foldr
          (stepB fuel ignore_dirs full rel pfx) (some ([], []))
      else some ([], []) := rfl

theorem markLast_eq_enumFrom {α : Type _} :
    ∀ (l : List α) (k : Nat),
      (l.enumFrom k).map (fun p => (p.2, p.1 + 1 == k + l.length)) = markLast l
  | [], _ => rfl
  | [a], k => by
    simp [markLast, List.enumFrom]
  | a :: b :: t, k => by
    have ih := markLast_eq_enumFrom (b :: t) (k + 1)
    have hlen : k + (a :: b :: t).length = k + 1 + (b :: t).length := by
      simp only [List.length_cons]; omega
    have hhead : (k + 1 == k + 1 + (b :: t).length) = false := by
      refine beq_eq_false_iff_ne.mpr ?_
      simp only [List.length_cons]; omega
    rw [hlen, List.enumFrom_cons, List.map_cons, ih]
    show (a, k + 1 == k + 1 + (b :: t).length) :: markLast (b :: t) = markLast (a :: b :: t)
    rw [hhead]
    rfl

theorem markLast_eq_enum {α : Type _} (l : List α) :
    l.enum.map (fun p => (p.2, p.1 + 1 == l.length)) = markLast l := by
  simpa using markLast_eq_enumFrom l 0

theorem markLast_map_fst {α : Type _} : ∀ l : List α, (markLast l).map Prod.fst = l
  | [] => rfl
  | [_] => rfl
  | a :: b :: t => by
    simpa [markLast] using markLast_map_fst (b :: t)

theorem fst_mem_of_mem_markLast {α : Type _} {l : List α} {q : α × Bool}
    (h : q ∈ markLast l) : q.1 ∈ l := by
  have := List.mem_map_of_mem Prod.fst h
  rwa [markLast_map_fst] at this

theorem mem_markLast_of_mem {α : Type _} {l : List α} {a : α} (h : a ∈ l) :
    ∃ b, (a, b) ∈ markLast l := by
  rw [← markLast_map_fst l] at h
  rcases List.mem_map.mp h with ⟨q, hq, hfst⟩
  exact ⟨q.2, by rwa [show (a, q.2) = q from by rw [← hfst]] ⟩

theorem markLast_append_single {α : Type _} :
    ∀ (l : List α) (a : α),
      markLast (l ++ [a]) = l.map (fun x => (x, false)) ++ [(a, true)]
  | [], _ => rfl
  | [b], a => rfl
  | b :: c :: t, a => by
    simpa [markLast] using markLast_append_single (c :: t) a

theorem combine_cons (p : List String × List FileEntry)
    (ps : List (List String × List FileEntry)) :
    combine (p :: ps) = (p.1 ++ (combine ps).1, p.2 ++ (combine ps).2) := rfl

theorem mem_combine_files {ps : List (List String × List FileEntry)} {e : FileEntry} :
    e ∈ (combine ps).2 ↔ ∃ p ∈ ps, e ∈ p.2 := by
  induction ps with
  | nil => simp [combine]
  | cons p ps ih =>
    rw [combine_cons]
    simp only [List.mem_append, ih, List.mem_cons]
    constructor
    · rintro (h | ⟨q, hq, he⟩)
      · exact ⟨p, Or.inl rfl, h⟩
      · exact ⟨q, Or.inr hq, he⟩
    · rintro ⟨q, (rfl | hq), he⟩
      · exact Or.inl he
      · exact Or.inr ⟨q, hq, he⟩

/-! ## Size lemmas -/

theorem fsSize_pos : ∀ a : FS, 1 ≤ fsSize a
  | .file _ _ => le_refl 1
  | .other _ => le_refl 1
  | .dir _ _ cs => by simp [fsSize]

theorem fsSize_le_of_mem : ∀ {l : List FS} {a : FS}, a ∈ l → fsSize a ≤ fsListSize l := by
  intro l
  induction l with
  | nil => intro a h; cases h
  | cons b t ih =>
    intro a h
    rcases List.mem_cons.mp h with rfl | h
    · simp [fsListSize]
    · calc fsSize a ≤ fsListSize t := ih h
        _ ≤ fsListSize (b :: t) := by simp [fsListSize]

theorem fsListSize_perm {l₁ l₂ : List FS} (h : l₁.Perm l₂) :
    fsListSize l₁ = fsListSize l₂ := by
  induction h with
  | nil => rfl
  | cons a _ ih => simp [fsListSize, ih]
  | swap a b l => simp [fsListSize]; omega
  | trans _ _ ih₁ ih₂ => omega

theorem fsListSize_sortItems (l : List FS) : fsListSize (sortItems l) = fsListSize l :=
  fsListSize_perm (List.perm_insertionSort _ l)

theorem mem_sortItems {l : List FS} {a : FS} : a ∈ sortItems l ↔ a ∈ l :=
  (List.perm_insertionSort _ l).mem_iff

/-! ## Fuel sufficiency and the walk decomposition -/

theorem walk_directory_unreadable (ignore_dirs : List String) (full rel pfx : String)
    (cs : List FS) : walk_directory ignore_dirs full rel pfx false cs = ([], []) := rfl

theorem foldr_stepB (ignore_dirs : List String) (full rel pfx : String) (S f : Nat)
    (hf : ∀ (full' rel' pfx' : String) (r' : Bool) (cs' : List FS),
        fsListSize cs' < S →
        walkDirF f ignore_dirs full' rel' pfx' r' cs' =
          some (walk_directory ignore_dirs full' rel' pfx' r' cs')) :
    ∀ (Q : List (FS × Bool)), (∀ q ∈ Q, fsSize q.1 ≤ S) →
      Q.foldr (stepB f ignore_dirs full rel pfx) (some ([], [])) =
        some (combine (Q.map (childStep ignore_dirs full rel pfx))) := by
  intro Q
  induction Q with
  | nil => intro _; rfl
  | cons q Q ih =>
    intro hq
    have hQ : ∀ p ∈ Q, fsSize p.1 ≤ S := fun p hp => hq p (List.mem_cons_of_mem q hp)
    rw [List.foldr_cons, ih hQ, List.map_cons, combine_cons]
    rcases q with ⟨item, b⟩
    cases item with
    | file name content =>
      by_cases hmem : fsName (FS.file name content) ∈ ignore_dirs
      · simp [stepB, childStep, hmem]
      · simp [stepB, childStep, hmem]
    | dir name r cs =>
      have hcs : fsListSize cs < S := by
        have := hq (FS.dir name r cs, b) (List.mem_cons_self _ _)
        simp only [fsSize] at this
        omega
      by_cases hmem : fsName (FS.dir name r cs) ∈ ignore_dirs
      · simp [stepB, childStep, hmem]
      · simp [stepB, childStep, hmem, hf _ _ _ r cs hcs]
    | other name =>
      by_cases hmem : fsName (FS.other name) ∈ ignore_dirs
      · simp [stepB, childStep, hmem]
      · simp [stepB, childStep, hmem]

theorem fst_mem_of_mem_flagged {M : List FS} {q : FS × Bool}
    (h : q ∈ M.enum.map (fun p => (p.2, p.1 + 1 == M.length))) : q.1 ∈ M := by
  have hmap : (M.enum.map (fun p => (p.2, p.1 + 1 == M.length))).map Prod.fst = M := by
    rw [List.map_map]
    exact List.enum_map_snd M
  have := List.mem_map_of_mem Prod.fst h
  rwa [hmap] at this

theorem walkDirF_complete_aux :
    ∀ (n : Nat) (cs : List FS), fsListSize cs < n →
      ∀ (ignore_dirs : List String) (full rel pfx : String) (r : Bool) (fuel : Nat),
        fsListSize cs < fuel →
        walkDirF fuel ignore_dirs full rel pfx r cs =
          some (walk_directory ignore_dirs full rel pfx r cs) := by
  intro n
  induction n with
  | zero => intro cs h; omega
  | succ n ih =>
    intro cs h ignore_dirs full rel pfx r fuel hfuel
    obtain ⟨f, rfl⟩ : ∃ f, fuel = f + 1 := ⟨fuel - 1, by omega⟩
    cases r with
    | false =>
      rw [walkDirF_succ, if_neg (by simp), walk_directory_unreadable]
    | true =>
      have hq : ∀ q ∈ (sortItems cs).enum.map
          (fun p => (p.2, p.1 + 1 == (sortItems cs).length)), fsSize q.1 ≤ fsListSize cs := by
        intro q hqmem
        have h1 : q.1 ∈ sortItems cs := fst_mem_of_mem_flagged hqmem
        have h2 := fsSize_le_of_mem h1
        rwa [fsListSize_sortItems] at h2
      have hf : ∀ (full' rel' pfx' : String) (r' : Bool) (cs' : List FS),
          fsListSize cs' < fsListSize cs →
          walkDirF f ignore_dirs full' rel' pfx' r' cs' =
            some (walk_directory ignore_dirs full' rel' pfx' r' cs') := by
        intro full' rel' pfx' r' cs' hlt
        exact ih cs' (by omega) ignore_dirs full' rel' pfx' r' f (by omega)
      have hfS : ∀ (full' rel' pfx' : String) (r' : Bool) (cs' : List FS),
          fsListSize cs' < fsListSize cs →
          walkDirF (fsListSize cs) ignore_dirs full' rel' pfx' r' cs' =
            some (walk_directory ignore_dirs full' rel' pfx' r' cs') := by
        intro full' rel' pfx' r' cs' hlt
        exact ih cs' (by omega) ignore_dirs full' rel' pfx' r' (fsListSize cs) (by omega)
      rw [walkDirF_succ, if_pos rfl,
        foldr_stepB ignore_dirs full rel pfx (fsListSize cs) f hf _ hq]
      show _ = some (walk_directory ignore_dirs full rel pfx true cs)
      rw [walk_directory, walkDirF_succ, if_pos rfl,
        foldr_stepB ignore_dirs full rel pfx (fsListSize cs) (fsListSize cs) hfS _ hq]
      rfl

/-- With any fuel exceeding the number of entries, the fuel-indexed walk
halts with the answer of the total walk. -/
theorem walkDirF_complete (ignore_dirs : List String) (full rel pfx : String)
    (r : Bool) (cs : List FS) (fuel : Nat) (hfuel : fsListSize cs < fuel) :
    walkDirF fuel ignore_dirs full rel pfx r cs =
      some (walk_directory ignore_dirs full rel pfx r cs) :=
  walkDirF_complete_aux (fsListSize cs + 1) cs (Nat.lt_succ_self _)
    ignore_dirs full rel pfx r fuel hfuel

/-- The walk of a readable directory is the concatenation, over the sorted
children each paired with its `is_last_item` flag (`i == len(items) - 1`),
of the per-child contributions. -/
theorem walk_decomp (ignore_dirs : List String) (full rel pfx : String) (cs : List FS) :
    walk_directory ignore_dirs full rel pfx true cs =
      combine ((markLast (sortItems cs)).map (childStep ignore_dirs full rel pfx)) := by
  have hq : ∀ q ∈ (sortItems cs).enum.map
      (fun p => (p.2, p.1 + 1 == (sortItems cs).length)), fsSize q.1 ≤ fsListSize cs := by
    intro q hqmem
    have h1 : q.1 ∈ sortItems cs := fst_mem_of_mem_flagged hqmem
    have h2 := fsSize_le_of_mem h1
    rwa [fsListSize_sortItems] at h2
  have hf : ∀ (full' rel' pfx' : String) (r' : Bool) (cs' : List FS),
      fsListSize cs' < fsListSize cs →
      walkDirF (fsListSize cs) ignore_dirs full' rel' pfx' r' cs' =
        some (walk_directory ignore_dirs full' rel' pfx' r' cs') := by
    intro full' rel' pfx' r' cs' hlt
    exact walkDirF_complete ignore_dirs full' rel' pfx' r' cs' (fsListSize cs) hlt
  rw [walk_directory, walkDirF_succ, if_pos rfl,
    foldr_stepB ignore_dirs full rel pfx (fsListSize cs) (fsListSize cs) hf _ hq,
    Option.getD_some, ← markLast_eq_enum, List.map_map]

/-! ## Order properties of the sort keys -/

theorem charsLE_total : ∀ l₁ l₂ : List Char, charsLE l₁ l₂ = true ∨ charsLE l₂ l₁ = true
  | [], _ => Or.inl rfl
  | _ :: _, [] => Or.inr rfl
  | a :: as, b :: bs => by
    rcases lt_trichotomy a b with h | h | h
    · left; simp [charsLE, h]
    · subst h
      rcases charsLE_total as bs with ih | ih
      · left; simp [charsLE, ih]
      · right; simp [charsLE, ih]
    · right; simp [charsLE, h]

theorem charsLE_trans : ∀ {l₁ l₂ l₃ : List Char},
    charsLE l₁ l₂ = true → charsLE l₂ l₃ = true → charsLE l₁ l₃ = true
  | [], _, _, _, _ => rfl
  | _ :: _, [], _, h₁, _ => by simp [charsLE] at h₁
  | _ :: _, _ :: _, [], _, h₂ => by simp [charsLE] at h₂
  | a :: as, b :: bs, c :: cs, h₁, h₂ => by
    simp only [charsLE, Bool.or_eq_true, Bool.and_eq_true, decide_eq_true_eq,
      beq_iff_eq] at h₁ h₂ ⊢
    rcases h₁ with h₁ | ⟨rfl, h₁⟩
    · rcases h₂ with h₂ | ⟨rfl, _⟩
      · exact Or.inl (lt_trans h₁ h₂)
      · exact Or.inl h₁
    · rcases h₂ with h₂ | ⟨rfl, h₂⟩
      · exact Or.inl h₂
      · exact Or.inr ⟨rfl, charsLE_trans h₁ h₂⟩

theorem keyLE_total (a b : FS) : keyLE a b = true ∨ keyLE b a = true := by
  unfold keyLE strLE
  rcases charsLE_total (lowerStr (fsName a)).data (lowerStr (fsName b)).data with h | h <;>
    cases hfa : fsIsFile a <;> cases hfb : fsIsFile b <;> simp [h]

theorem keyLE_trans {a b c : FS} (h₁ : keyLE a b = true) (h₂ : keyLE b c = true) :
    keyLE a c = true := by
  unfold keyLE strLE at h₁ h₂ ⊢
  cases hfa : fsIsFile a <;> cases hfb : fsIsFile b <;> cases hfc : fsIsFile c <;>
    simp [hfa, hfb, hfc] at h₁ h₂ ⊢ <;>
    exact charsLE_trans h₁ h₂

theorem sortItems_perm (l : List FS) : (sortItems l).Perm l :=
  List.perm_insertionSort _ l

theorem sortItems_pairwise (l : List FS) :
    (sortItems l).Pairwise (fun a b => keyLE a b = true) := by
  haveI : IsTotal FS (fun a b => keyLE a b = true) := ⟨keyLE_total⟩
  haveI : IsTrans FS (fun a b => keyLE a b = true) := ⟨fun _ _ _ => keyLE_trans⟩
  exact List.sorted_insertionSort _ l

theorem sortFiles_perm (l : List FileEntry) : (sortFiles l).Perm l :=
  List.perm_insertionSort _ l

theorem sortFiles_pairwise (l : List FileEntry) :
    (sortFiles l).Pairwise (fun a b => b.count ≤ a.count) := by
  haveI : IsTotal FileEntry (fun a b => b.count ≤ a.count) := ⟨fun a b => Nat.le_total b.count a.count⟩
  haveI : IsTrans FileEntry (fun a b => b.count ≤ a.count) :=
    ⟨fun _ _ _ hab hbc => le_trans hbc hab⟩
  exact List.sorted_insertionSort _ l

theorem sortFiles_filter_eq (l : List FileEntry) (c : Nat) :
    (sortFiles l).filter (fun e => e.count == c) = l.filter (fun e => e.count == c) := by
  have hpair : (l.filter (fun e => e.count == c)).Pairwise (fun a b => b.count ≤ a.count) := by
    apply List.pairwise_of_forall_mem_list
    intro a ha b hb
    have ha' : a.count = c := by simpa using (List.mem_filter.mp ha).2
    have hb' : b.count = c := by simpa using (List.mem_filter.mp hb).2
    omega
  have hsub : List.Sublist (l.filter (fun e => e.count == c)) (sortFiles l) :=
    List.sublist_insertionSort hpair (List.filter_sublist l)
  have hsub2 : List.Sublist (l.filter (fun e => e.count == c))
      ((sortFiles l).filter (fun e => e.count == c)) := by
    have := hsub.filter (fun e => e.count == c)
    rwa [List.filter_filter, show (fun e : FileEntry => e.count == c && (e.count == c)) =
      (fun e : FileEntry => e.count == c) from by funext e; cases e.count == c <;> rfl] at this
  have hlen : ((sortFiles l).filter (fun e => e.count == c)).length =
      (l.filter (fun e => e.count == c)).length :=
    ((sortFiles_perm l).filter _).length_eq
  exact (hsub2.eq_of_length hlen.symm).symm

/-! ## Evaluation lemmas for per-child contributions -/

theorem childStep_ignored {ignore_dirs : List String} {full rel pfx : String}
    {item : FS} {b : Bool} (h : fsName item ∈ ignore_dirs) :
    childStep ignore_dirs full rel pfx (item, b) = ([], []) := by
  simp [childStep, h]

theorem childStep_file {ignore_dirs : List String} {full rel pfx : String}
    {name : String} {content : Option String} {b : Bool} (h : name ∉ ignore_dirs) :
    childStep ignore_dirs full rel pfx (FS.file name content, b) =
      ([pfx ++ (if b then "└── " else "├── ") ++ name ++ " (" ++
          fmtThousands (count_chars content) ++ ")"],
       [⟨joinPath full name, count_chars content, joinRel rel name⟩]) := by
  simp [childStep, fsName, h]

theorem childStep_dir {ignore_dirs : List String} {full rel pfx : String}
    {name : String} {r : Bool} {cs : List FS} {b : Bool} (h : name ∉ ignore_dirs) :
    childStep ignore_dirs full rel pfx (FS.dir name r cs, b) =
      ((pfx ++ (if b then "└── " else "├── ") ++ name ++ "/") ::
          (walk_directory ignore_dirs (joinPath full name) (joinRel rel name)
            (pfx ++ (if b then "    " else "│   ")) r cs).1,
       (walk_directory ignore_dirs (joinPath full name) (joinRel rel name)
          (pfx ++ (if b then "    " else "│   ")) r cs).2) := by
  simp [childStep, fsName, h]

theorem childStep_other {ignore_dirs : List String} {full rel pfx : String}
    {name : String} {b : Bool} :
    childStep ignore_dirs full rel pfx (FS.other name, b) = ([], []) := by
  by_cases h : fsName (FS.other name) ∈ ignore_dirs
  · simp [childStep, h]
  · simp [childStep, h]

/-! ## Path invariants of the produced file records -/

theorem namesOK_of_mem {l : List FS} {a : FS} (h : a ∈ l) (hl : namesOKL l = true) :
    namesOK a = true := by
  induction l with
  | nil => cases h
  | cons b t ih =>
    simp only [namesOKL, Bool.and_eq_true] at hl
    rcases List.mem_cons.mp h with rfl | h
    · exact hl.1
    · exact ih h hl.2

theorem string_length_pos {s : String} (h : s ≠ "") : 0 < s.length := by
  rcases s with ⟨data⟩
  cases data with
  | nil => exact absurd rfl h
  | cons c t => simp [String.length]

theorem joinRel_ne_empty {rel n : String} (hrel : rel ≠ "") : joinRel rel n ≠ "" := by
  rw [joinRel, if_neg hrel]
  intro hcontra
  have hlen := congrArg String.length hcontra
  rw [String.length_append, String.length_append] at hlen
  have h1 := string_length_pos hrel
  have h2 : ("/" : String).length = 1 := rfl
  have h3 : ("" : String).length = 0 := rfl
  omega

theorem joinRel_ne_dot {rel n : String} (hrel : rel ≠ "") (hn : n ≠ "") :
    joinRel rel n ≠ "." := by
  rw [joinRel, if_neg hrel]
  intro hcontra
  have hlen := congrArg String.length hcontra
  rw [String.length_append, String.length_append] at hlen
  have h1 := string_length_pos hrel
  have h2 := string_length_pos hn
  have h3 : ("/" : String).length = 1 := rfl
  have h4 : ("." : String).length = 1 := rfl
  omega

theorem nameOK_ne {n : String} (h : nameOK n = true) : n ≠ "" ∧ n ≠ "." := by
  rw [nameOK, Bool.and_eq_true, Bool.not_eq_true', beq_eq_false_iff_ne, Bool.not_eq_true',
    beq_eq_false_iff_ne] at h
  exact h

/-- Along the walk started at root `"."` with empty relative accumulator, the
recorded full path of every file equals its recorded relative path. -/
theorem walk_full_eq_rel :
    ∀ (n : Nat) (cs : List FS), fsListSize cs ≤ n →
      ∀ (ignore_dirs : List String) (full rel pfx : String) (r : Bool),
        namesOKL cs = true →
        ((rel = "" ∧ full = ".") ∨ (rel = full ∧ rel ≠ "" ∧ rel ≠ ".")) →
        ∀ e ∈ (walk_directory ignore_dirs full rel pfx r cs).2, e.full = e.rel := by
  intro n
  induction n with
  | zero =>
    intro cs hsz ignore_dirs full rel pfx r _ _ e he
    cases cs with
    | nil =>
      cases r with
      | false => rw [walk_directory_unreadable] at he; cases he
      | true => rw [walk_decomp] at he; cases he
    | cons a t =>
      have := fsSize_pos a
      simp only [fsListSize] at hsz
      omega
  | succ n ih =>
    intro cs hsz ignore_dirs full rel pfx r hnames hinv e he
    cases r with
    | false => rw [walk_directory_unreadable] at he; cases he
    | true =>
      rw [walk_decomp] at he
      rcases mem_combine_files.mp he with ⟨p, hp, hep⟩
      rcases List.mem_map.mp hp with ⟨q, hq, rfl⟩
      rcases q with ⟨item, b⟩
      have hqcs : item ∈ cs := mem_sortItems.mp (fst_mem_of_mem_markLast hq)
      have hqok : namesOK item = true := namesOK_of_mem hqcs hnames
      by_cases hmem : fsName item ∈ ignore_dirs
      · rw [childStep_ignored hmem] at hep
        cases hep
      · cases item with
        | file name content =>
          have hmem' : name ∉ ignore_dirs := by simpa [fsName] using hmem
          rw [childStep_file hmem'] at hep
          rcases List.mem_singleton.mp hep with rfl
          show joinPath full name = joinRel rel name
          rcases hinv with ⟨hrel, hfull⟩ | ⟨hrf, hne, hnd⟩
          · subst hrel; subst hfull
            rw [joinPath, if_pos rfl, joinRel, if_pos rfl]
          · subst hrf
            rw [joinPath, if_neg hnd, joinRel, if_neg hne]
        | dir name r' cs' =>
          have hmem' : name ∉ ignore_dirs := by simpa [fsName] using hmem
          rw [childStep_dir hmem'] at hep
          have hsz' : fsListSize cs' ≤ n := by
            have h1 := fsSize_le_of_mem hqcs
            simp only [fsSize] at h1
            omega
          rw [namesOK, Bool.and_eq_true] at hqok
          rcases nameOK_ne hqok.1 with ⟨hn1, hn2⟩
          refine ih cs' hsz' ignore_dirs (joinPath full name) (joinRel rel name) _ r' hqok.2
            (Or.inr ?_) e hep
          rcases hinv with ⟨hrel, hfull⟩ | ⟨hrf, hne, hnd⟩
          · subst hrel; subst hfull
            refine ⟨?_, ?_, ?_⟩
            · rw [joinPath, if_pos rfl, joinRel, if_pos rfl]
            · rw [joinRel, if_pos rfl]; exact hn1
            · rw [joinRel, if_pos rfl]; exact hn2
          · subst hrf
            refine ⟨?_, joinRel_ne_empty hne, joinRel_ne_dot hne hn1⟩
            rw [joinPath, if_neg hnd, joinRel, if_neg hne]
        | other name =>
          rw [childStep_other] at hep
          cases hep

/-- Every file record produced by the walk has a relative path built only
from child names that are not in the ignore set. -/
theorem walk_files_components :
    ∀ (n : Nat) (cs : List FS), fsListSize cs ≤ n →
      ∀ (ignore_dirs : List String) (full rel pfx : String) (r : Bool),
        ∀ e ∈ (walk_directory ignore_dirs full rel pfx r cs).2,
          ∃ segs : List String, segs ≠ [] ∧ (∀ s ∈ segs, s ∉ ignore_dirs) ∧
            e.rel = relPathOf rel segs := by
  intro n
  induction n with
  | zero =>
    intro cs hsz ignore_dirs full rel pfx r e he
    cases cs with
    | nil =>
      cases r with
      | false => rw [walk_directory_unreadable] at he; cases he
      | true => rw [walk_decomp] at he; cases he
    | cons a t =>
      have := fsSize_pos a
      simp only [fsListSize] at hsz
      omega
  | succ n ih =>
    intro cs hsz ignore_dirs full rel pfx r e he
    cases r with
    | false => rw [walk_directory_unreadable] at he; cases he
    | true =>
      rw [walk_decomp] at he
      rcases mem_combine_files.mp he with ⟨p, hp, hep⟩
      rcases List.mem_map.mp hp with ⟨q, hq, rfl⟩
      rcases q with ⟨item, b⟩
      have hqcs : item ∈ cs := mem_sortItems.mp (fst_mem_of_mem_markLast hq)
      by_cases hmem : fsName item ∈ ignore_dirs
      · rw [childStep_ignored hmem] at hep
        cases hep
      · cases item with
        | file name content =>
          have hmem' : name ∉ ignore_dirs := by simpa [fsName] using hmem
          rw [childStep_file hmem'] at hep
          rcases List.mem_singleton.mp hep with rfl
          refine ⟨[name], by simp, ?_, by simp [relPathOf]⟩
          intro s hs
          rcases List.mem_singleton.mp hs with rfl
          exact hmem'
        | dir name r' cs' =>
          have hmem' : name ∉ ignore_dirs := by simpa [fsName] using hmem
          rw [childStep_dir hmem'] at hep
          have hsz' : fsListSize cs' ≤ n := by
            have h1 := fsSize_le_of_mem hqcs
            simp only [fsSize] at h1
            omega
          rcases ih cs' hsz' ignore_dirs (joinPath full name) (joinRel rel name) _ r' e hep
            with ⟨segs, hne, hsegs, herel⟩
          refine ⟨name :: segs, by simp, ?_, ?_⟩
          · intro s hs
            rcases List.mem_cons.mp hs with rfl | hs
            · exact hmem'
            · exact hsegs s hs
          · rw [herel]
            simp [relPathOf]
        | other name =>
          rw [childStep_other] at hep
          cases hep

/-- A file child that is not ignored always contributes its record to the
walk of a readable directory. -/
theorem file_entry_mem_walk {ignore_dirs : List String} {full rel pfx : String}
    {cs : List FS} {name : String} {content : Option String}
    (hmem : FS.file name content ∈ cs) (hig : name ∉ ignore_dirs) :
    (⟨joinPath full name, count_chars content, joinRel rel name⟩ : FileEntry) ∈
      (walk_directory ignore_dirs full rel pfx true cs).2 := by
  rw [walk_decomp]
  rcases mem_markLast_of_mem (mem_sortItems.mpr hmem) with ⟨b, hb⟩
  apply mem_combine_files.mpr
  refine ⟨childStep ignore_dirs full rel pfx (FS.file name content, b),
    List.mem_map_of_mem _ hb, ?_⟩
  rw [childStep_file hig]
  exact List.mem_singleton.mpr rfl

theorem keyLE_elim {a b : FS} (h : keyLE a b = true) :
    (fsIsFile a = true → fsIsFile b = true) ∧
    (fsIsFile a = fsIsFile b →
      strLE (lowerStr (fsName a)) (lowerStr (fsName b)) = true) := by
  rw [keyLE] at h
  cases hfa : fsIsFile a <;> cases hfb : fsIsFile b <;> simp_all

/-! ## Claim theorems -/

/-- C1: the walk of a readable directory is exactly the concatenation of
per-child contributions in sorted order, where the `i`-th child carries the
flag `i + 1 == len(items)` (it is the last item of its sibling group,
ignored siblings included); by definition of `childStep`, a rendered child
uses the connector `└── ` exactly when that flag is set (`├── ` otherwise),
and a directory is recursed into with the indentation extended by blank
spaces exactly when the flag is set (`│   ` otherwise). -/
theorem tree_connector_iff_last (ignore_dirs : List String) (full rel pfx : String)
    (cs : List FS) :
    walk_directory ignore_dirs full rel pfx true cs =
      combine (((sortItems cs).enum.map
          (fun p => (p.2, p.1 + 1 == (sortItems cs).length))).map
        (childStep ignore_dirs full rel pfx)) := by
  rw [walk_decomp, ← markLast_eq_enum]

/-- C2 is false as stated: a directory whose listing raises a permission
error does have an entry in the TreeLine sequence — its own line, emitted by
the parent before recursing.  Here the walk of a root containing the
unreadable directory `secret` produces the tree line `└── secret/`. -/
theorem permission_denied_dir_has_entry_cex :
    walk_directory default_ignore "." "" "" true
        [FS.dir "secret" false [FS.file "x" (some "abc")]] = (["└── secret/"], []) := by
  decide

/-- C2 amended: a directory whose listing raises a permission error
contributes no tree lines and no file records from its contents and no
error is surfaced (the walk of an unreadable directory returns empty
sequences), but the directory's own TreeLine is still emitted by its
parent; traversal continues with the siblings (concretely: a sibling file
of an unreadable directory is still listed and recorded). -/
theorem permission_denied_subtree_skipped (ignore_dirs : List String)
    (full rel pfx : String) (cs : List FS) :
    walk_directory ignore_dirs full rel pfx false cs = ([], []) ∧
    (∀ (name : String) (cs' : List FS) (b : Bool), name ∉ ignore_dirs →
      childStep ignore_dirs full rel pfx (FS.dir name false cs', b) =
        ([pfx ++ (if b then "└── " else "├── ") ++ name ++ "/"], [])) ∧
    walk_directory default_ignore "." "" "" true
        [FS.dir "locked" false [], FS.file "a" (some "x")] =
      (["├── locked/", "└── a (1)"], [⟨"a", 1, "a"⟩]) := by
  refine ⟨walk_directory_unreadable _ _ _ _ _, ?_, by decide⟩
  intro name cs' b h
  rw [childStep_dir h, walk_directory_unreadable]

theorem permission_denied_subtree_skipped_witness :
    ("locked" ∉ ([] : List String)) ∧
    childStep [] "." "" "" (FS.dir "locked" false [FS.file "x" (some "y")], true) =
      (["└── locked/"], []) :=
  ⟨by decide, (permission_denied_subtree_skipped [] "." "" "" []).2.1 "locked"
      [FS.file "x" (some "y")] true (by decide)⟩

/-- C3 is false as stated: with the root `"."` used by `main`, the first
component of a produced `FileEntry` is the relative path string (no leading
separator), not an absolute path. -/
theorem top_files_path_not_absolute_cex :
    ¬ (∀ e ∈ (get_tree_structure default_ignore "." true
          [FS.file "a.txt" (some "hi")]).2, isAbsolutePath e.full = true) := by
  decide

/-- C3 amended: every line of the top-files section renders the entry's
recorded path (the first `FileEntry` component) followed by its character
count with thousands separators in parentheses, and for the root `"."`
used by `main` that recorded path equals the path relative to the root
(in particular it is relative, not absolute), provided the tree uses real
directory-entry names (none is `""` or `"."`). -/
theorem top_files_root_joined (readable : Bool) (cs : List FS) :
    top_files_lines (sortFiles (get_tree_structure default_ignore "." readable cs).2) =
      ((sortFiles (get_tree_structure default_ignore "." readable cs).2).take 100).map
        (fun e => e.full ++ " (" ++ fmtThousands e.count ++ ")\n") ∧
    (namesOKL cs = true →
      ∀ e ∈ (get_tree_structure default_ignore "." readable cs).2, e.full = e.rel) := by
  refine ⟨rfl, ?_⟩
  intro hnames e he
  exact walk_full_eq_rel (fsListSize cs) cs le_rfl default_ignore "." "" "" readable hnames
    (Or.inl ⟨rfl, rfl⟩) e he

theorem top_files_root_joined_witness :
    namesOKL [FS.dir "sub" true [FS.file "a.txt" (some "hi")]] = true ∧
    (⟨"sub/a.txt", 2, "sub/a.txt"⟩ : FileEntry) ∈
      (get_tree_structure default_ignore "." true
        [FS.dir "sub" true [FS.file "a.txt" (some "hi")]]).2 ∧
    (⟨"sub/a.txt", 2, "sub/a.txt"⟩ : FileEntry).full =
      (⟨"sub/a.txt", 2, "sub/a.txt"⟩ : FileEntry).rel :=
  ⟨by decide, by decide,
    (top_files_root_joined true [FS.dir "sub" true [FS.file "a.txt" (some "hi")]]).2
      (by decide) _ (by decide)⟩

/-- C4: a child whose name is in the ignore set contributes nothing to the
walk at its own level (no tree line, no file record, no descent), and at
every nesting depth each produced file record has a relative path built
exclusively from non-ignored child names — so ignored names never appear in
any produced record. -/
theorem ignored_children_skipped :
    (∀ (ignore_dirs : List String) (full rel pfx : String) (item : FS) (b : Bool),
      fsName item ∈ ignore_dirs →
      childStep ignore_dirs full rel pfx (item, b) = ([], [])) ∧
    (∀ (ignore_dirs : List String) (full rel pfx : String) (r : Bool) (cs : List FS),
      ∀ e ∈ (walk_directory ignore_dirs full rel pfx r cs).2,
        ∃ segs : List String, segs ≠ [] ∧ (∀ s ∈ segs, s ∉ ignore_dirs) ∧
          e.rel = relPathOf rel segs) :=
  ⟨fun _ _ _ _ _ _ h => childStep_ignored h,
   fun ignore_dirs full rel pfx r cs e he =>
     walk_files_components (fsListSize cs) cs le_rfl ignore_dirs full rel pfx r e he⟩

theorem ignored_children_skipped_witness :
    (fsName (FS.dir ".git" true [FS.file "c" (some "z")]) ∈ default_ignore) ∧
    childStep default_ignore "." "" "" (FS.dir ".git" true [FS.file "c" (some "z")], true) =
      ([], []) ∧
    ((⟨"a", 1, "a"⟩ : FileEntry) ∈
      (walk_directory default_ignore "." "" "" true [FS.file "a" (some "x")]).2) ∧
    (∃ segs : List String, segs ≠ [] ∧ (∀ s ∈ segs, s ∉ default_ignore) ∧
      (⟨"a", 1, "a"⟩ : FileEntry).rel = relPathOf "" segs) :=
  ⟨by decide,
   ignored_children_skipped.1 default_ignore "." "" ""
     (FS.dir ".git" true [FS.file "c" (some "z")]) true (by decide),
   by decide,
   ignored_children_skipped.2 default_ignore "." "" "" true [FS.file "a" (some "x")]
     ⟨"a", 1, "a"⟩ (by decide)⟩

/-- C5: a file whose content cannot be opened or read gets character count
`0` from `count_chars`, and such a file (when not ignored) still yields its
`FileEntry` with count `0` in the walk of a readable directory — it is not
omitted and no failure propagates. -/
theorem unreadable_file_zero_entry :
    count_chars none = 0 ∧
    (∀ (ignore_dirs : List String) (full rel pfx : String) (cs : List FS) (name : String),
      FS.file name none ∈ cs → name ∉ ignore_dirs →
      (⟨joinPath full name, 0, joinRel rel name⟩ : FileEntry) ∈
        (walk_directory ignore_dirs full rel pfx true cs).2) :=
  ⟨rfl, fun _ _ _ _ _ _ hmem hig => file_entry_mem_walk hmem hig⟩

theorem unreadable_file_zero_entry_witness :
    (FS.file "locked.txt" none ∈ [FS.file "locked.txt" none]) ∧
    ("locked.txt" ∉ default_ignore) ∧
    (⟨"locked.txt", 0, "locked.txt"⟩ : FileEntry) ∈
      (walk_directory default_ignore "." "" "" true [FS.file "locked.txt" none]).2 :=
  ⟨List.mem_singleton.mpr rfl, by decide,
   unreadable_file_zero_entry.2 default_ignore "." "" "" [FS.file "locked.txt" none]
     "locked.txt" (List.mem_singleton.mpr rfl) (by decide)⟩

/-- C6: the sorted sibling list visited by the walk is a permutation of the
children in which a file is never followed by a non-file (directories, and
any other entries, precede all files), and children with the same
`is_file()` status appear in case-insensitive alphabetical order of name. -/
theorem children_sorted (cs : List FS) :
    (sortItems cs).Perm cs ∧
    (sortItems cs).Pairwise (fun a b =>
      (fsIsFile a = true → fsIsFile b = true) ∧
      (fsIsFile a = fsIsFile b →
        strLE (lowerStr (fsName a)) (lowerStr (fsName b)) = true)) :=
  ⟨sortItems_perm cs, (sortItems_pairwise cs).imp (fun h => keyLE_elim h)⟩

/-- C7: after sorting the `file_info` records by count descending, every
adjacent pair is non-increasing in count, and the sort is stable: the
subsequence of entries sharing any fixed count is exactly the corresponding
subsequence of the traversal order. -/
theorem file_info_sorted_stable (l : List FileEntry) :
    (∀ (i : Nat) (h : i + 1 < (sortFiles l).length),
      ((sortFiles l).get ⟨i + 1, h⟩).count ≤
        ((sortFiles l).get ⟨i, Nat.lt_of_succ_lt h⟩).count) ∧
    (∀ c : Nat, (sortFiles l).filter (fun e => e.count == c) =
      l.filter (fun e => e.count == c)) := by
  constructor
  · intro i h
    have hp := sortFiles_pairwise l
    rw [List.pairwise_iff_getElem] at hp
    have := hp i (i + 1) (Nat.lt_of_succ_lt h) h (Nat.lt_succ_self i)
    simpa [List.get_eq_getElem] using this
  · exact sortFiles_filter_eq l

theorem file_info_sorted_stable_witness :
    (0 + 1 < (sortFiles [⟨"a", 1, "a"⟩, ⟨"b", 5, "b"⟩, ⟨"c", 5, "c"⟩]).length) ∧
    ((sortFiles [⟨"a", 1, "a"⟩, ⟨"b", 5, "b"⟩, ⟨"c", 5, "c"⟩]).get ⟨1, by decide⟩).count ≤
      ((sortFiles [⟨"a", 1, "a"⟩, ⟨"b", 5, "b"⟩, ⟨"c", 5, "c"⟩]).get ⟨0, by decide⟩).count ∧
    (sortFiles [⟨"a", 1, "a"⟩, ⟨"b", 5, "b"⟩, ⟨"c", 5, "c"⟩]).filter (fun e => e.count == 5) =
      ([⟨"a", 1, "a"⟩, ⟨"b", 5, "b"⟩, ⟨"c", 5, "c"⟩] : List FileEntry).filter
        (fun e => e.count == 5) :=
  ⟨by decide,
   (file_info_sorted_stable [⟨"a", 1, "a"⟩, ⟨"b", 5, "b"⟩, ⟨"c", 5, "c"⟩]).1 0 (by decide),
   (file_info_sorted_stable [⟨"a", 1, "a"⟩, ⟨"b", 5, "b"⟩, ⟨"c", 5, "c"⟩]).2 5⟩

set_option maxRecDepth 8192 in
/-- C8: for an empty, readable root directory the report is exactly the two
banner/title blocks around an otherwise empty tree section containing only
the literal `.` root line, with an empty top-files section, and the total
file count printed at the end is zero. -/
theorem empty_root_report :
    main_report true [] =
      bannerLine ++ "\n" ++ "TREE СТРУКТУРА РЕПОЗИТОРИЯ\n" ++ bannerLine ++ "\n\n" ++
        ".\n" ++
        "\n" ++ bannerLine ++ "\n" ++
        "ТОП 100 ФАЙЛОВ ПО КОЛИЧЕСТВУ СИМВОЛОВ (от больших к маленьким)\n" ++
        bannerLine ++ "\n\n" ∧
    total_files true [] = 0 :=
  ⟨rfl, rfl⟩

/-- C9: a child that is neither a regular file nor a directory produces no
tree line and no file record, yet it occupies a position in the sibling
sequence: the last-sibling flag marks the final position of the full list,
so a trailing such child forces every other sibling to be rendered as
non-last.  Concretely, a lone subdirectory followed by such an entry is
rendered with `├── `, not `└── `. -/
theorem non_listed_child_counts_for_last :
    (∀ (ignore_dirs : List String) (full rel pfx name : String) (b : Bool),
      childStep ignore_dirs full rel pfx (FS.other name, b) = ([], [])) ∧
    (∀ (l : List FS) (o : FS),
      markLast (l ++ [o]) = l.map (fun x => (x, false)) ++ [(o, true)]) ∧
    (walk_directory [] "." "" "" true [FS.dir "a" true [], FS.other "z"]).1 =
      ["├── a/"] :=
  ⟨fun _ _ _ _ _ _ => childStep_other, fun l o => markLast_append_single l o, by decide⟩

/-- C10: on every finite filesystem tree (the inductive `FS` rules out
cycles) the recursive walk terminates: with any call-depth fuel exceeding
the number of entries, the fuel-indexed walk halts with the (finite) tree
line and file record sequences of the total walk. -/
theorem walk_terminates (ignore_dirs : List String) (full rel pfx : String)
    (r : Bool) (cs : List FS) (fuel : Nat) (h : fsListSize cs < fuel) :
    walkDirF fuel ignore_dirs full rel pfx r cs =
      some (walk_directory ignore_dirs full rel pfx r cs) :=
  walkDirF_complete ignore_dirs full rel pfx r cs fuel h

theorem walk_terminates_witness :
    fsListSize [FS.dir "d" true [FS.file "x" (some "ab")]] < 3 ∧
    walkDirF 3 [] "." "" "" true [FS.dir "d" true [FS.file "x" (some "ab")]] =
      some (walk_directory [] "." "" "" true [FS.dir "d" true [FS.file "x" (some "ab")]]) :=
  ⟨by decide,
   walk_terminates [] "." "" "" true [FS.dir "d" true [FS.file "x" (some "ab")]] 3 (by decide)⟩
